import Mathlib

/-!
Verification development for the discovery-and-pairing core of `fermi-dash`
(`src/fermi_dash/builder.py`).  The Python source is shallowly embedded:
filenames are `String`s, directory listings are `List String` in enumeration
order, parsed YAML documents are a `Yaml` tree, Python `float` bin sizes are
modelled as exact rationals `ℚ` (all bin tokens the pattern can produce are
decimal fractions), and Python dictionaries are association lists that keep
insertion order, mirroring CPython's ordered dicts.
-/

namespace FermiDash

/-- Model of `pathlib.PurePath.suffix` on a bare file name: the substring from
the last `.` to the end, provided that dot is neither the first nor the last
character; otherwise the empty string. -/
def pySuffix (name : String) : String :=
  let cs := name.toList
  match ((List.range cs.length).filter (fun i => cs.getD i ' ' = '.')).getLast? with
  | some i => if 0 < i ∧ i < cs.length - 1 then String.mk (cs.drop i) else ""
  | none => ""

/-- Model of `pathlib.PurePath.stem`: the name with `pySuffix` removed. -/
def pyStem (name : String) : String :=
  String.mk (name.toList.take (name.toList.length - (pySuffix name).toList.length))

/-- `str.lower()` (ASCII, which covers every extension literal involved). -/
def toLowerStr (s : String) : String :=
  String.mk (s.toList.map Char.toLower)

/-- Whether `p` is a prefix of `cs` (character-exact). -/
def isPrefixList : List Char → List Char → Bool
  | [], _ => true
  | _ :: _, [] => false
  | p :: ps, c :: cs => if p = c then isPrefixList ps cs else false

/-- `s.startswith(pre)`; also the matches of `glob(pre + "*")` over a
directory listing, since `*` matches any (possibly empty) remainder. -/
def startsWithStr (s pre : String) : Bool :=
  isPrefixList pre.toList s.toList

/-- Order-preserving first-occurrence deduplication with an accumulator of
already-seen elements; models both the `seen` loop in `load_target_names` and
`list(dict.fromkeys(...))` in `build_dashboard`. -/
def dedupGo [DecidableEq α] (seen : List α) : List α → List α
  | [] => []
  | x :: t => if x ∈ seen then dedupGo seen t else x :: dedupGo (x :: seen) t

/-- First-occurrence deduplication of a list. -/
def firstOccDedup [DecidableEq α] (l : List α) : List α := dedupGo [] l

/-- Index of the first occurrence of `a` in `l` (length of `l` if absent). -/
def firstIdx [DecidableEq α] (l : List α) (a : α) : Nat :=
  match l with
  | [] => 0
  | x :: t => if x = a then 0 else firstIdx t a + 1

theorem mem_dedupGo [DecidableEq α] (seen : List α) (l : List α) (x : α) :
    x ∈ dedupGo seen l ↔ x ∈ l ∧ x ∉ seen := by
  induction l generalizing seen with
  | nil => simp [dedupGo]
  | cons y t ih =>
    by_cases hy : y ∈ seen
    · by_cases hxy : x = y
      · subst hxy
        simp [dedupGo, if_pos hy, ih, hy]
      · simp [dedupGo, if_pos hy, ih, hxy]
    · by_cases hxy : x = y
      · subst hxy
        simp [dedupGo, if_neg hy, ih, hy]
      · simp [dedupGo, if_neg hy, ih, hxy, List.mem_cons]

theorem nodup_dedupGo [DecidableEq α] (seen : List α) (l : List α) :
    (dedupGo seen l).Nodup := by
  induction l generalizing seen with
  | nil => simp [dedupGo]
  | cons y t ih =>
    by_cases hy : y ∈ seen
    · simpa [dedupGo, hy] using ih seen
    · simp only [dedupGo, if_neg hy]
      refine List.nodup_cons.mpr ⟨fun hmem => ?_, ih (y :: seen)⟩
      exact ((mem_dedupGo _ _ _).mp hmem).2 (List.mem_cons_self _ _)

theorem pairwise_firstIdx_dedupGo [DecidableEq α] (seen : List α) (l : List α) :
    (dedupGo seen l).Pairwise (fun a b => firstIdx l a < firstIdx l b) := by
  induction l generalizing seen with
  | nil => simp [dedupGo]
  | cons y t ih =>
    by_cases hy : y ∈ seen
    · simp only [dedupGo, if_pos hy]
      refine ((ih seen).imp_of_mem ?_)
      intro a b ha hb hlt
      have hane : a ≠ y := fun h => ((mem_dedupGo _ _ _).mp ha).2 (h.symm ▸ hy)
      have hbne : b ≠ y := fun h => ((mem_dedupGo _ _ _).mp hb).2 (h.symm ▸ hy)
      simp only [firstIdx, if_neg (Ne.symm hane), if_neg (Ne.symm hbne)]
      omega
    · simp only [dedupGo, if_neg hy]
      refine List.pairwise_cons.mpr ⟨?_, ?_⟩
      · intro b hb
        have hbne : b ≠ y :=
          fun h => ((mem_dedupGo _ _ _).mp hb).2 (h ▸ List.mem_cons_self _ _)
        simp [firstIdx, if_neg (Ne.symm hbne)]
      · refine ((ih (y :: seen)).imp_of_mem ?_)
        intro a b ha hb hlt
        have hane : a ≠ y :=
          fun h => ((mem_dedupGo _ _ _).mp ha).2 (h ▸ List.mem_cons_self _ _)
        have hbne : b ≠ y :=
          fun h => ((mem_dedupGo _ _ _).mp hb).2 (h ▸ List.mem_cons_self _ _)
        simp only [firstIdx, if_neg (Ne.symm hane), if_neg (Ne.symm hbne)]
        omega

theorem mem_firstOccDedup [DecidableEq α] (l : List α) (x : α) :
    x ∈ firstOccDedup l ↔ x ∈ l := by
  simp [firstOccDedup, mem_dedupGo]

theorem nodup_firstOccDedup [DecidableEq α] (l : List α) :
    (firstOccDedup l).Nodup := nodup_dedupGo [] l

theorem pairwise_firstIdx_firstOccDedup [DecidableEq α] (l : List α) :
    (firstOccDedup l).Pairwise (fun a b => firstIdx l a < firstIdx l b) :=
  pairwise_firstIdx_dedupGo [] l

/- ------------------ YAML parsing (`_walk_names`, `load_target_names`) ------------------ -/

/-- A parsed YAML document: scalars, sequences and maps.  Map keys are modelled
as strings (the only comparison the source performs on a key is `k == "name"`,
which no non-string key can satisfy, and the walk never recurses into keys). -/
inductive Yaml where
  | str (s : String)
  | int (n : Int)
  | float (q : ℚ)
  | bool (b : Bool)
  | null
  | seq (items : List Yaml)
  | map (entries : List (String × Yaml))
deriving Repr

/-- The scalar test `isinstance(v, (str, int, float))` of `_walk_names`.
Python's `bool` is a subclass of `int`, so boolean values pass the test. -/
def isCollectible : Yaml → Bool
  | .str _ => true
  | .int _ => true
  | .float _ => true
  | .bool _ => true
  | _ => false

/-- Python `str()` of the scalars `_walk_names` can collect.  Booleans render
as `True`/`False` as in Python; floats are rendered with a trailing `.0` for
integral values (sufficient for the rationals exercised here).  The containers
and `null` are never passed to `str` by the walk; they map to a dummy value. -/
def pyStr : Yaml → String
  | .str s => s
  | .int n => toString n
  | .float q => if q.den = 1 then toString q.num ++ ".0" else toString q
  | .bool b => cond b "True" "False"
  | _ => ""

mutual

/-- Names collected by `_walk_names(obj, out)`, as the list the call appends to
`out` (the Python function mutates `out` in place; appends happen in exactly
this depth-first order). -/
def collectNames : Yaml → List String
  | .map es => collectMap es
  | .seq its => collectSeq its
  | _ => []

/-- The dict branch of `_walk_names`: for each entry in insertion order, a
`name` key with a collectible scalar contributes `str(v)`; any other entry is
recursed into. -/
def collectMap : List (String × Yaml) → List String
  | [] => []
  | (k, v) :: rest =>
    (if k = "name" && isCollectible v then [pyStr v] else collectNames v) ++ collectMap rest

/-- The list branch of `_walk_names`: recurse into every item in order. -/
def collectSeq : List Yaml → List String
  | [] => []
  | v :: rest => collectNames v ++ collectSeq rest

end

/-- `load_target_names`: walk the parsed document, then deduplicate with a
`seen` set, preserving first-occurrence order. -/
def loadTargetNames (doc : Yaml) : List String :=
  firstOccDedup (collectNames doc)

theorem collectMap_append (l1 l2 : List (String × Yaml)) :
    collectMap (l1 ++ l2) = collectMap l1 ++ collectMap l2 := by
  induction l1 with
  | nil => simp [collectMap]
  | cons e t ih =>
    obtain ⟨k, v⟩ := e
    simp [collectMap, ih, List.append_assoc]

/- ------------------ Extension sets and the lightcurve pattern ------------------ -/

/-- `IMG_EXTS` from the source. -/
def IMG_EXTS : List String := [".png", ".jpg", ".jpeg", ".gif", ".svg"]

/-- `HTML_EXTS` from the source. -/
def HTML_EXTS : List String := [".html"]

/-- `PDF_EXTS` from the source. -/
def PDF_EXTS : List String := [".pdf"]

/-- The union `IMG_EXTS | HTML_EXTS` used by `discover_lightcurves`. -/
def visualExts : List String := IMG_EXTS ++ HTML_EXTS

/-- The classification of §3's `ArtifactKind`, derived from the extension sets
the source keys its decisions on. -/
inductive ArtifactKind where
  | image
  | markup
  | document
deriving DecidableEq, Repr

/-- Kind of a (lower-cased) extension per the source's three extension sets. -/
def classifyExt (ext : String) : Option ArtifactKind :=
  if IMG_EXTS.contains ext then some .image
  else if HTML_EXTS.contains ext then some .markup
  else if PDF_EXTS.contains ext then some .document
  else none

/-- Case-insensitive character comparison (`re.IGNORECASE` on ASCII literals). -/
def lowEq (a b : Char) : Bool := a.toLower = b.toLower

/-- Strip a literal (case-insensitively) from the front of the input,
returning the rest on success. -/
def stripCI : List Char → List Char → Option (List Char)
  | [], cs => some cs
  | _ :: _, [] => none
  | l :: ls, c :: cs => if lowEq l c then stripCI ls cs else none

/-- Exact rational value of the decimal token `<d1>.<d2>`; models
`float(m.group("days"))` (every such token is an exact decimal fraction):
the digits of `d1` followed by those of `d2`, over `10 ^ |d2|`. -/
def qOfToken (d1 d2 : List Char) : ℚ :=
  mkRat (Nat.ofDigits 10 (((d1 ++ d2).map (fun c => c.toNat - '0'.toNat)).reverse))
    (10 ^ d2.length)

/-- Match one of the `LC_PATTERNS` regexes at the start of `cs`: the literal
`lit`, then `\d+\.\d+` (greedy digit runs are deterministic here because each
run is followed by a non-digit), then `days`, then the lookahead `(?=\.)`.
Returns the parsed `days` group on success. -/
def matchAt (lit : List Char) (cs : List Char) : Option ℚ :=
  match stripCI lit cs with
  | none => none
  | some r1 =>
    let d1 := r1.takeWhile Char.isDigit
    match r1.dropWhile Char.isDigit with
    | '.' :: r3 =>
      let d2 := r3.takeWhile Char.isDigit
      if d1.isEmpty || d2.isEmpty then none
      else
        match stripCI "days".toList (r3.dropWhile Char.isDigit) with
        | none => none
        | some r5 =>
          match r5 with
          | '.' :: _ => some (qOfToken d1 d2)
          | _ => none
    | _ => none

/-- `re.search`: try the pattern at every start position, leftmost first. -/
def searchAux (lit : List Char) : List Char → Option ℚ
  | [] => matchAt lit []
  | c :: cs =>
    match matchAt lit (c :: cs) with
    | some q => some q
    | none => searchAux lit cs

/-- The literal of the first `LC_PATTERNS` regex. -/
def lcLit1 : List Char := "_lightcurve_".toList

/-- The literal of the second `LC_PATTERNS` regex. -/
def lcLit2 : List Char := "_lightcurve_data_".toList

/-- The `for rx in LC_PATTERNS` loop of `discover_lightcurves`: try the first
regex on the whole file name, then the second. -/
def parseDays (name : String) : Option ℚ :=
  match searchAux lcLit1 name.toList with
  | some q => some q
  | none => searchAux lcLit2 name.toList

/-- The per-file logic of `discover_lightcurves`: reject non-visual extensions
first (`ext not in (IMG_EXTS | HTML_EXTS)`), then run the pattern search. -/
def parseLC (name : String) : Option ℚ :=
  if visualExts.contains (toLowerStr (pySuffix name)) then parseDays name else none

/-- Written from the claim: acceptance requires a visual extension and an
occurrence of `_lightcurve_` or `_lightcurve_data_` followed by
`<digits>.<digits>` then `days`, with `days` immediately followed by a
literal `.` (this is the regex lookahead; the dot need not be the final
extension separator). -/
def amendedAccept (name : String) : Bool :=
  visualExts.contains (toLowerStr (pySuffix name)) &&
    name.toList.tails.any (fun t => (matchAt lcLit1 t).isSome || (matchAt lcLit2 t).isSome)

/-- Match `lit`, `<digits>.<digits>`, `days` at the start of `cs` and require
that what remains is exactly `sfx` (used with `sfx` the file's suffix, so the
token sits immediately before the extension separator). -/
def matchEndAt (lit : List Char) (cs : List Char) (sfx : List Char) : Bool :=
  match stripCI lit cs with
  | none => false
  | some r1 =>
    let d1 := r1.takeWhile Char.isDigit
    match r1.dropWhile Char.isDigit with
    | '.' :: r3 =>
      let d2 := r3.takeWhile Char.isDigit
      if d1.isEmpty || d2.isEmpty then false
      else
        match stripCI "days".toList (r3.dropWhile Char.isDigit) with
        | none => false
        | some r5 => r5 = sfx
    | _ => false

/-- Written from the claim as stated: acceptance requires a visual extension
and `_lightcurve_`/`_lightcurve_data_` followed by `<digits>.<digits>` then
`days` immediately before the extension separator (i.e. the remainder after
`days` is exactly the file's suffix). -/
def strictAccept (name : String) : Bool :=
  let sfx := (pySuffix name).toList
  visualExts.contains (toLowerStr (pySuffix name)) &&
    name.toList.tails.any (fun t => matchEndAt lcLit1 t sfx || matchEndAt lcLit2 t sfx)

/- ------------------ SED resolution (`find_sed_path`) ------------------ -/

/-- `find_sed_path`, over the target directory's file listing in enumeration
order.  `target_dir.glob("sed_plot.*")` keeps the names that start with the
literal `sed_plot.` (the `*` matches any remainder).  Then: first candidate
whose lower-cased suffix is an image extension; else, if `allow_pdf`, the
first candidate with a pdf suffix; else none. -/
def findSedPath (listing : List String) (allow_pdf : Bool) : Option String :=
  let candidates := listing.filter (fun n => startsWithStr n "sed_plot.")
  if candidates.isEmpty then none
  else
    match candidates.find? (fun p => IMG_EXTS.contains (toLowerStr (pySuffix p))) with
    | some p => some p
    | none =>
      if allow_pdf then candidates.find? (fun p => PDF_EXTS.contains (toLowerStr (pySuffix p)))
      else none

/-- Written from the claim as stated: consider exactly the files whose base
name ignoring the extension (`pyStem`) equals the literal `sed_plot`, then
pick the first image candidate, else (if documents are allowed) the first pdf
candidate, else none. -/
def sedResolveStemSpec (listing : List String) (allowDocument : Bool) : Option String :=
  let candidates := listing.filter (fun n => pyStem n = "sed_plot")
  match candidates.filter (fun p => IMG_EXTS.contains (toLowerStr (pySuffix p))) with
  | c :: _ => some c
  | [] =>
    if allowDocument then
      (candidates.filter (fun p => PDF_EXTS.contains (toLowerStr (pySuffix p)))).head?
    else none

/-- The amended claim's candidate set: names starting with the literal
`sed_plot.`, as matched by `glob("sed_plot.*")`; selection as in the claim. -/
def sedResolveGlobSpec (listing : List String) (allowDocument : Bool) : Option String :=
  let candidates := listing.filter (fun n => startsWithStr n "sed_plot.")
  match candidates.filter (fun p => IMG_EXTS.contains (toLowerStr (pySuffix p))) with
  | c :: _ => some c
  | [] =>
    if allowDocument then
      (candidates.filter (fun p => PDF_EXTS.contains (toLowerStr (pySuffix p)))).head?
    else none

/- ------------------ Lightcurve indexing (`discover_lightcurves`) ------------------ -/

/-- A `{days: {ext: path}}` index; both layers are insertion-ordered
association lists, as CPython dicts are. -/
abbrev LcIndex := List (ℚ × List (String × String))

/-- Python dict assignment `files[ext] = p`: overwrite in place if the key
exists, otherwise append the new key at the end. -/
def assocSet : List (String × String) → String → String → List (String × String)
  | [], e, p => [(e, p)]
  | (k, v) :: rest, e, p =>
    if k = e then (k, p) :: rest else (k, v) :: assocSet rest e p

/-- `out.setdefault(days_val, {})[ext] = p` on the ordered index. -/
def indexInsert (out : LcIndex) (q : ℚ) (ext p : String) : LcIndex :=
  match out with
  | [] => [(q, [(ext, p)])]
  | (d, files) :: rest =>
    if d = q then (d, assocSet files ext p) :: rest
    else (d, files) :: indexInsert rest q ext p

/-- One iteration of the scan loop of `discover_lightcurves`: skip files whose
lower-cased suffix is not visual (`ext not in (IMG_EXTS | HTML_EXTS)`), skip
files no pattern matches, record the rest under their parsed bin size. -/
def discoverStep (out : LcIndex) (p : String) : LcIndex :=
  let ext := toLowerStr (pySuffix p)
  if !visualExts.contains ext then out
  else
    match parseDays p with
    | none => out
    | some q => indexInsert out q ext p

/-- The scan loop of `discover_lightcurves` over the files of `lc_dir` in
enumeration order (the `p.is_file()` filter is part of the listing model). -/
def discoverScan (listing : List String) : LcIndex :=
  listing.foldl discoverStep []

/- ------------------ Bin selection (`build_dashboard`, lines 199-218) ------------------ -/

/-- Dict lookup `files[e]` / membership `e in files` on the per-bin dict. -/
def assocFind (files : List (String × String)) (e : String) : Option String :=
  (files.find? (fun kv => decide (kv.1 = e))).map (·.2)

/-- The fixed extension priority of the `for e in [...]` loop. -/
def prioExts : List String := [".png", ".jpg", ".jpeg", ".gif", ".svg", ".html"]

/-- The `for e in prioExts: if e in files: chosen = files[e]; break` loop. -/
def pickLoop : List String → List (String × String) → Option String
  | [], _ => none
  | e :: rest, files =>
    match assocFind files e with
    | some p => some p
    | none => pickLoop rest files

/-- The per-bin choice: `files[".html"]` when `prefer_html` and present,
otherwise the first present extension in priority order. -/
def pickArtifact (files : List (String × String)) (prefer_html : Bool) : Option String :=
  if prefer_html && (assocFind files ".html").isSome then assocFind files ".html"
  else pickLoop prioExts files

/-- Written from the claim: choose the Markup artifact when `preferMarkup`
holds and one exists, otherwise the first present extension of the fixed
priority list. -/
def claimPick (files : List (String × String)) (preferMarkup : Bool) : Option String :=
  if preferMarkup && (assocFind files ".html").isSome then assocFind files ".html"
  else prioExts.findSome? (fun e => assocFind files e)

/-- `sorted(found_map.keys())`: the bins of the index in ascending order. -/
def sortedKeys (index : LcIndex) : List ℚ :=
  List.insertionSort (· ≤ ·) (index.map Prod.fst)

/-- `if opts.days: wanted = list(dict.fromkeys(opts.days)) else: wanted =
sorted(keys)`.  Python truthiness: both `None` and the empty list take the
`else` branch. -/
def wantedDays (index : LcIndex) (days : Option (List ℚ)) : List ℚ :=
  match days with
  | some l => if l.isEmpty then sortedKeys index else firstOccDedup l
  | none => sortedKeys index

/-- `found_map.get(d, {})`. -/
def filesFor (index : LcIndex) (d : ℚ) : List (String × String) :=
  ((index.find? (fun e => decide (e.1 = d))).map Prod.snd).getD []

/-- The `pairs` loop: one optional pick per wanted bin, skipped bins
contribute nothing. -/
def selectBins (index : LcIndex) (days : Option (List ℚ)) (prefer_html : Bool) :
    List (ℚ × String) :=
  (wantedDays index days).filterMap
    (fun d => (pickArtifact (filesFor index d) prefer_html).map (fun p => (d, p)))

/- ------------------ The build (`build_dashboard`) ------------------ -/

/-- A read-only filesystem snapshot: which directories exist, and the file
listing of a directory in enumeration order (regular files only, modelling
the `p.is_file()` filter and glob over directory entries). -/
structure FS where
  dirExists : String → Bool
  listing : String → List String

/-- The fields of `BuildOptions` the discovery core reads.  `title`,
`subtitle`, `outfile` and `template_name` only affect rendering. -/
structure BuildOptions where
  root : String
  days : Option (List ℚ)
  prefer_html : Bool
  allow_pdf : Bool

/-- One tab's discovery result: the per-target portion of the manifest. -/
structure TargetRecord where
  name : String
  sed : Option String
  lightcurves : List (ℚ × String)
deriving Repr

/-- The guard `if not lc_dir.exists(): return out` of `discover_lightcurves`,
then the scan. -/
def discoverIndex (fs : FS) (dir : String) : LcIndex :=
  if fs.dirExists dir then discoverScan (fs.listing dir) else []

/-- The lightcurve index of one target: `lc_dir = tdir / "lc_plots"`. -/
def targetIndex (fs : FS) (opts : BuildOptions) (name : String) : LcIndex :=
  discoverIndex fs (opts.root ++ "/" ++ name ++ "/lc_plots")

/-- The per-target body of the main loop: SED resolution and bin selection. -/
def mkRecord (fs : FS) (opts : BuildOptions) (name : String) : TargetRecord :=
  { name := name
    sed := findSedPath (fs.listing (opts.root ++ "/" ++ name)) opts.allow_pdf
    lightcurves := selectBins (targetIndex fs opts name) opts.days opts.prefer_html }

/-- The `for name in names` loop: existing target directories contribute a
record (a tab), missing ones a warning (modelled by the missing path). -/
def processTargets (fs : FS) (opts : BuildOptions) (names : List String) :
    List TargetRecord × List String :=
  names.foldl
    (fun acc n =>
      if fs.dirExists (opts.root ++ "/" ++ n) then
        (acc.1 ++ [mkRecord fs opts n], acc.2)
      else
        (acc.1, acc.2 ++ [opts.root ++ "/" ++ n]))
    ([], [])

/-- The two fatal signals of `build_dashboard`. -/
inductive BuildError where
  | noNames
  | noTabs
deriving DecidableEq, Repr

/-- The `SystemExit` code raised for each fatal signal. -/
def exitCode : BuildError → Nat
  | .noNames => 2
  | .noTabs => 3

/-- `build_dashboard`: extract names (fatal `SystemExit(2)` when empty),
process each target, fail with `SystemExit(3)` when no tab was built,
otherwise return the records and the accumulated warnings. -/
def buildDashboard (cfg : Yaml) (fs : FS) (opts : BuildOptions) :
    Except BuildError (List TargetRecord × List String) :=
  let names := loadTargetNames cfg
  if names.isEmpty then .error .noNames
  else
    let pr := processTargets fs opts names
    if pr.1.isEmpty then .error .noTabs else .ok pr

/- ------------------ Helper lemmas ------------------ -/

theorem find?_eq_head_filter (p : α → Bool) (l : List α) :
    l.find? p = (l.filter p).head? := by
  induction l with
  | nil => rfl
  | cons x t ih =>
    cases h : p x with
    | true => rw [List.find?_cons_of_pos _ h, List.filter_cons_of_pos h, List.head?_cons]
    | false =>
      rw [List.find?_cons_of_neg _ (by simp [h]), List.filter_cons_of_neg (by simp [h]), ih]

theorem searchAux_isSome (lit : List Char) (cs : List Char) :
    (searchAux lit cs).isSome = cs.tails.any (fun t => (matchAt lit t).isSome) := by
  induction cs with
  | nil => simp [searchAux, List.tails]
  | cons c cs ih =>
    rw [searchAux]
    cases h : matchAt lit (c :: cs) <;> simp [List.tails, h, ih]

theorem any_orDistrib (l : List α) (f g : α → Bool) :
    l.any (fun x => f x || g x) = (l.any f || l.any g) := by
  induction l with
  | nil => rfl
  | cons x t ih =>
    simp only [List.any_cons, ih]
    cases f x <;> cases g x <;> simp

theorem parseDays_isSome (name : String) :
    (parseDays name).isSome
      = ((searchAux lcLit1 name.toList).isSome || (searchAux lcLit2 name.toList).isSome) := by
  rw [parseDays]
  cases h : searchAux lcLit1 name.toList <;> simp [h]

theorem pickLoop_eq_findSome (es : List String) (files : List (String × String)) :
    pickLoop es files = es.findSome? (fun e => assocFind files e) := by
  induction es with
  | nil => rfl
  | cons e t ih =>
    rw [pickLoop, List.findSome?]
    cases assocFind files e <;> simp [ih]

theorem pickArtifact_eq_claimPick (files : List (String × String)) (ph : Bool) :
    pickArtifact files ph = claimPick files ph := by
  rw [pickArtifact, claimPick, pickLoop_eq_findSome]

theorem pickArtifact_nil (ph : Bool) : pickArtifact [] ph = none := by
  cases ph <;> rfl

theorem pickLoop_isSome_of_mem (es : List String) (files : List (String × String))
    (h : ∃ kv ∈ files, kv.1 ∈ es) : (pickLoop es files).isSome := by
  induction es with
  | nil =>
    obtain ⟨kv, _, hmem⟩ := h
    simp at hmem
  | cons e t ih =>
    rw [pickLoop]
    cases hfind : assocFind files e with
    | some p => simp
    | none =>
      refine ih ?_
      obtain ⟨kv, hkv, hmem⟩ := h
      rcases List.mem_cons.mp hmem with heq | hmem'
      · exfalso
        have hnone := Option.map_eq_none'.mp hfind
        have := List.find?_eq_none.mp hnone kv hkv
        simp [heq] at this
      · exact ⟨kv, hkv, hmem'⟩

theorem pickArtifact_isSome_of_valid (files : List (String × String)) (ph : Bool)
    (h : ∃ kv ∈ files, kv.1 ∈ prioExts) : (pickArtifact files ph).isSome := by
  rw [pickArtifact]
  by_cases hc : (ph && (assocFind files ".html").isSome) = true
  · rw [if_pos hc]
    exact (Bool.and_eq_true _ _).mp hc |>.2
  · rw [if_neg hc]
    exact pickLoop_isSome_of_mem _ _ h

theorem selectBins_map_fst (index : LcIndex) (days : Option (List ℚ)) (ph : Bool) :
    (selectBins index days ph).map Prod.fst
      = (wantedDays index days).filter
          (fun d => (pickArtifact (filesFor index d) ph).isSome) := by
  rw [selectBins]
  induction wantedDays index days with
  | nil => rfl
  | cons d t ih =>
    rw [List.filterMap_cons, List.filter_cons]
    cases h : pickArtifact (filesFor index d) ph <;> simp [h, ih]

theorem wantedDays_nodup (index : LcIndex) (days : Option (List ℚ))
    (h : (index.map Prod.fst).Nodup) : (wantedDays index days).Nodup := by
  have hsorted : (sortedKeys index).Nodup :=
    ((List.perm_insertionSort (· ≤ ·) (index.map Prod.fst)).nodup_iff).mpr h
  cases days with
  | none => exact hsorted
  | some l =>
    rw [wantedDays]
    cases l.isEmpty <;> simp [hsorted, nodup_firstOccDedup]

theorem filesFor_of_mem_keys (index : LcIndex) (d : ℚ)
    (h : d ∈ index.map Prod.fst) :
    ∃ e ∈ index, e.1 = d ∧ filesFor index d = e.2 := by
  cases hf : index.find? (fun e => decide (e.1 = d)) with
  | none =>
    exfalso
    obtain ⟨e, he, heq⟩ := List.mem_map.mp h
    have := List.find?_eq_none.mp hf e he
    simp [heq] at this
  | some e =>
    refine ⟨e, List.mem_of_find?_eq_some hf, ?_, ?_⟩
    · have := List.find?_some hf
      simpa using this
    · simp [filesFor, hf]

theorem indexInsert_keys (out : LcIndex) (q : ℚ) (ext p : String) :
    (indexInsert out q ext p).map Prod.fst
      = if q ∈ out.map Prod.fst then out.map Prod.fst else out.map Prod.fst ++ [q] := by
  induction out with
  | nil => simp [indexInsert]
  | cons e rest ih =>
    obtain ⟨d, files⟩ := e
    by_cases hd : d = q
    · subst hd
      simp [indexInsert]
    · rw [indexInsert]
      simp only [if_neg hd, List.map_cons, ih]
      by_cases hq : q ∈ rest.map Prod.fst
      · simp [hq, Ne.symm hd]
      · simp [hq, Ne.symm hd]

theorem discoverStep_keys_nodup (out : LcIndex) (p : String)
    (h : (out.map Prod.fst).Nodup) :
    ((discoverStep out p).map Prod.fst).Nodup := by
  cases hv : visualExts.contains (toLowerStr (pySuffix p)) with
  | false =>
    have hv' : toLowerStr (pySuffix p) ∉ visualExts := by simpa using hv
    simpa [discoverStep, hv'] using h
  | true =>
    have hv' : toLowerStr (pySuffix p) ∈ visualExts := by simpa using hv
    cases hq : parseDays p with
    | none => simpa [discoverStep, hv', hq] using h
    | some q =>
      have hstep : discoverStep out p = indexInsert out q (toLowerStr (pySuffix p)) p := by
        simp [discoverStep, hv', hq]
      rw [hstep, indexInsert_keys]
      by_cases hmem : q ∈ out.map Prod.fst
      · simpa [hmem] using h
      · simp only [if_neg hmem]
        exact List.Nodup.append h (List.nodup_singleton q) (by simpa using hmem)

theorem discoverScan_keys_nodup_aux (listing : List String) (out : LcIndex)
    (h : (out.map Prod.fst).Nodup) :
    ((listing.foldl discoverStep out).map Prod.fst).Nodup := by
  induction listing generalizing out with
  | nil => simpa using h
  | cons p rest ih =>
    rw [List.foldl_cons]
    exact ih _ (discoverStep_keys_nodup out p h)

theorem discoverScan_keys_nodup (listing : List String) :
    ((discoverScan listing).map Prod.fst).Nodup :=
  discoverScan_keys_nodup_aux listing [] (by simp)

theorem discoverIndex_keys_nodup (fs : FS) (dir : String) :
    ((discoverIndex fs dir).map Prod.fst).Nodup := by
  rw [discoverIndex]
  cases fs.dirExists dir <;> simp [discoverScan_keys_nodup]

theorem processTargets_foldl_eq (fs : FS) (opts : BuildOptions) (names : List String)
    (acc : List TargetRecord × List String) :
    names.foldl
        (fun acc n =>
          if fs.dirExists (opts.root ++ "/" ++ n) then
            (acc.1 ++ [mkRecord fs opts n], acc.2)
          else
            (acc.1, acc.2 ++ [opts.root ++ "/" ++ n]))
        acc
      = (acc.1 ++ (names.filter (fun n => fs.dirExists (opts.root ++ "/" ++ n))).map
            (mkRecord fs opts),
         acc.2 ++ (names.filter (fun n => !fs.dirExists (opts.root ++ "/" ++ n))).map
            (fun n => opts.root ++ "/" ++ n)) := by
  induction names generalizing acc with
  | nil => simp
  | cons n t ih =>
    rw [List.foldl_cons]
    cases h : fs.dirExists (opts.root ++ "/" ++ n) <;>
      simp [h, ih, List.filter_cons]

theorem processTargets_eq (fs : FS) (opts : BuildOptions) (names : List String) :
    processTargets fs opts names
      = ((names.filter (fun n => fs.dirExists (opts.root ++ "/" ++ n))).map (mkRecord fs opts),
         (names.filter (fun n => !fs.dirExists (opts.root ++ "/" ++ n))).map
            (fun n => opts.root ++ "/" ++ n)) := by
  rw [processTargets, processTargets_foldl_eq]
  simp

/- ------------------ Concrete fixtures used by the claim instances ------------------ -/

/-- The index `{7.0: {.png, .html}, 30.0: {.png}}` of the spec's examples. -/
def exampleIndex : LcIndex :=
  [(7, [(".png", "lc7.png"), (".html", "lc7.html")]), (30, [(".png", "lc30.png")])]

/-- A configuration document with two targets, `a` and `b`. -/
def exampleConfig : Yaml :=
  Yaml.seq [Yaml.map [("name", Yaml.str "a")], Yaml.map [("name", Yaml.str "b")]]

/-- A snapshot in which only the target directory `root/b` exists. -/
def exampleFS : FS :=
  { dirExists := fun s => s = "root/b", listing := fun _ => [] }

/-- A snapshot in which every directory exists and is empty. -/
def exampleFSAll : FS :=
  { dirExists := fun _ => true, listing := fun _ => [] }

/-- Default build options at root `root`. -/
def exampleOpts : BuildOptions :=
  { root := "root", days := none, prefer_html := false, allow_pdf := false }

/- ------------------ Claim theorems ------------------ -/

/-- C2: for every configuration tree, name extraction returns the string forms
of the collectible scalar values found under `name` keys by the depth-first
walk, with no duplicates, ordered by position of first occurrence in the
walk's output (hence invariant under nesting depth and sibling ordering). -/
theorem c2_extract_first_occurrence_dedup (doc : Yaml) :
    (loadTargetNames doc).Nodup
    ∧ (∀ s, s ∈ loadTargetNames doc ↔ s ∈ collectNames doc)
    ∧ (loadTargetNames doc).Pairwise
        (fun a b => firstIdx (collectNames doc) a < firstIdx (collectNames doc) b) :=
  ⟨nodup_firstOccDedup _, fun s => mem_firstOccDedup _ s, pairwise_firstIdx_firstOccDedup _⟩

/-- C10: a `name` key with a boolean value passes the scalar test (Python
`bool` is a subclass of `int`), so its string form `True`/`False` is collected
as a target name, never skipped. -/
theorem c10_boolean_name_collected :
    (∀ (b : Bool) (pre post : List (String × Yaml)),
        pyStr (Yaml.bool b) ∈ loadTargetNames (Yaml.map (pre ++ ("name", Yaml.bool b) :: post)))
    ∧ pyStr (Yaml.bool true) = "True"
    ∧ pyStr (Yaml.bool false) = "False"
    ∧ loadTargetNames (Yaml.map [("name", Yaml.bool true)]) = ["True"]
    ∧ loadTargetNames (Yaml.map [("name", Yaml.bool false)]) = ["False"] := by
  refine ⟨?_, rfl, rfl, rfl, rfl⟩
  intro b pre post
  have hmid : collectMap (("name", Yaml.bool b) :: post)
      = [pyStr (Yaml.bool b)] ++ collectMap post := by
    simp [collectMap, isCollectible]
  have hc : collectNames (Yaml.map (pre ++ ("name", Yaml.bool b) :: post))
      = collectMap pre ++ ([pyStr (Yaml.bool b)] ++ collectMap post) := by
    show collectMap (pre ++ ("name", Yaml.bool b) :: post) = _
    rw [collectMap_append, hmid]
  simp [loadTargetNames, mem_firstOccDedup, hc]

/-- C9: a provided-but-empty requested-bin list is falsy in Python, so
selection takes the `else` branch and behaves exactly as if no bins were
requested: all discovered bins, sorted ascending, rather than an empty
result. -/
theorem c9_empty_request_behaves_as_none :
    (∀ (index : LcIndex) (ph : Bool),
        selectBins index (some []) ph = selectBins index none ph)
    ∧ (∀ index : LcIndex, wantedDays index (some []) = sortedKeys index)
    ∧ selectBins exampleIndex (some []) false = [(7, "lc7.png"), (30, "lc30.png")] :=
  ⟨fun _ _ => rfl, fun _ => rfl, by decide⟩

/-- C7: when name extraction yields an empty sequence the build aborts with
the `noNames` signal (`SystemExit(2)`), for every filesystem snapshot alike —
so before any target directory is consulted — and that signal is distinct
from the `noTabs` signal (`SystemExit(3)`) used when names exist but no
target could be built. -/
theorem c7_empty_config_aborts (cfg : Yaml) (opts : BuildOptions) (fs fs' : FS)
    (h : loadTargetNames cfg = []) :
    buildDashboard cfg fs opts = Except.error BuildError.noNames
    ∧ buildDashboard cfg fs opts = buildDashboard cfg fs' opts
    ∧ BuildError.noNames ≠ BuildError.noTabs
    ∧ exitCode BuildError.noNames ≠ exitCode BuildError.noTabs := by
  refine ⟨?_, ?_, by decide, by decide⟩ <;> simp [buildDashboard, h]

/-- Witness for `c7_empty_config_aborts` at a concrete empty document. -/
theorem c7_empty_config_aborts_witness :
    loadTargetNames Yaml.null = []
    ∧ (buildDashboard Yaml.null exampleFS exampleOpts = Except.error BuildError.noNames
       ∧ buildDashboard Yaml.null exampleFS exampleOpts
           = buildDashboard Yaml.null exampleFSAll exampleOpts
       ∧ BuildError.noNames ≠ BuildError.noTabs
       ∧ exitCode BuildError.noNames ≠ exitCode BuildError.noTabs) :=
  ⟨rfl, c7_empty_config_aborts Yaml.null exampleOpts exampleFS exampleFSAll rfl⟩

/-- C8: a target whose directory is missing contributes a warning and no
record, the remaining names are all still processed (the records are exactly
those of the names whose directory exists, in order), and the build is not
fatal as long as some name's directory exists. -/
theorem c8_missing_target_dir_skipped (cfg : Yaml) (fs : FS) (opts : BuildOptions)
    (n : String) (hn : n ∈ loadTargetNames cfg)
    (hmiss : fs.dirExists (opts.root ++ "/" ++ n) = false) :
    (opts.root ++ "/" ++ n) ∈ (processTargets fs opts (loadTargetNames cfg)).2
    ∧ n ∉ (processTargets fs opts (loadTargetNames cfg)).1.map TargetRecord.name
    ∧ (processTargets fs opts (loadTargetNames cfg)).1
        = ((loadTargetNames cfg).filter (fun m => fs.dirExists (opts.root ++ "/" ++ m))).map
            (mkRecord fs opts)
    ∧ (∀ m, m ∈ loadTargetNames cfg → fs.dirExists (opts.root ++ "/" ++ m) = true →
        ∃ recs warns, buildDashboard cfg fs opts = Except.ok (recs, warns)) := by
  have hpe := processTargets_eq fs opts (loadTargetNames cfg)
  have hnames : (processTargets fs opts (loadTargetNames cfg)).1.map TargetRecord.name
      = (loadTargetNames cfg).filter (fun m => fs.dirExists (opts.root ++ "/" ++ m)) := by
    rw [hpe, List.map_map]
    have : TargetRecord.name ∘ mkRecord fs opts = id := funext fun m => rfl
    rw [this, List.map_id]
  refine ⟨?_, ?_, by rw [hpe], ?_⟩
  · rw [hpe]
    exact List.mem_map_of_mem _ (List.mem_filter.mpr ⟨hn, by simp [hmiss]⟩)
  · intro hmem
    rw [hnames] at hmem
    have := (List.mem_filter.mp hmem).2
    rw [hmiss] at this
    exact absurd this (by simp)
  · intro m hm hex
    refine ⟨(processTargets fs opts (loadTargetNames cfg)).1,
           (processTargets fs opts (loadTargetNames cfg)).2, ?_⟩
    have e1 : (loadTargetNames cfg).isEmpty = false := by
      cases hc : loadTargetNames cfg with
      | nil => rw [hc] at hn; exact absurd hn (List.not_mem_nil n)
      | cons a t => rfl
    have e2 : (processTargets fs opts (loadTargetNames cfg)).1.isEmpty = false := by
      have hmf : m ∈ (loadTargetNames cfg).filter
          (fun m => fs.dirExists (opts.root ++ "/" ++ m)) :=
        List.mem_filter.mpr ⟨hm, hex⟩
      cases hc : (processTargets fs opts (loadTargetNames cfg)).1 with
      | nil =>
        rw [hpe] at hc
        rw [List.map_eq_nil_iff] at hc
        rw [hc] at hmf
        exact absurd hmf (List.not_mem_nil m)
      | cons r rs => rfl
    simp [buildDashboard, e1, e2]

/-- Witness for `c8_missing_target_dir_skipped`: target `a` of the example
configuration has no directory in the example snapshot, while `b` does. -/
theorem c8_missing_target_dir_skipped_witness :
    ("a" ∈ loadTargetNames exampleConfig
     ∧ exampleFS.dirExists (exampleOpts.root ++ "/" ++ "a") = false)
    ∧ ((exampleOpts.root ++ "/" ++ "a")
          ∈ (processTargets exampleFS exampleOpts (loadTargetNames exampleConfig)).2
       ∧ "a" ∉ (processTargets exampleFS exampleOpts
            (loadTargetNames exampleConfig)).1.map TargetRecord.name
       ∧ (processTargets exampleFS exampleOpts (loadTargetNames exampleConfig)).1
           = ((loadTargetNames exampleConfig).filter
                (fun m => exampleFS.dirExists (exampleOpts.root ++ "/" ++ m))).map
               (mkRecord exampleFS exampleOpts)
       ∧ (∀ m, m ∈ loadTargetNames exampleConfig →
            exampleFS.dirExists (exampleOpts.root ++ "/" ++ m) = true →
            ∃ recs warns,
              buildDashboard exampleConfig exampleFS exampleOpts = Except.ok (recs, warns))) :=
  ⟨⟨by decide, by decide⟩,
   c8_missing_target_dir_skipped exampleConfig exampleFS exampleOpts "a"
     (by decide) (by decide)⟩

/-- C1 counterexample: the regex lookahead `(?=\.)` only requires *some* dot
after `days`, so the code accepts `a_lightcurve_7.0days.x.png` even though the
token is not immediately before the extension separator (`pySuffix` is
`.png`); the claim as stated rejects this filename, refuting its "iff". -/
theorem c1_lookahead_counterexample :
    (parseLC "a_lightcurve_7.0days.x.png").isSome = true
    ∧ strictAccept "a_lightcurve_7.0days.x.png" = false := by decide

/-- C1 (amended): a filename is accepted iff its lower-cased extension is
visual and it contains `_lightcurve_` or `_lightcurve_data_` followed by
`<digits>.<digits>` then `days` (case-insensitive) immediately followed by a
literal dot — not necessarily the extension separator.  The concrete examples
hold: `blazar_lightcurve_data_7.0days.png` parses to BinSize 7.0 and `.png`
classifies as Image; the no-decimal name never matches; a `.txt` name is
rejected by the extension gate even though the pattern itself would match. -/
theorem c1_lightcurve_pattern :
    (∀ name : String, (parseLC name).isSome = amendedAccept name)
    ∧ parseLC "blazar_lightcurve_data_7.0days.png" = some 7
    ∧ classifyExt ".png" = some ArtifactKind.image
    ∧ parseLC "blazar_lightcurve_30days.png" = none
    ∧ parseLC "blazar_lightcurve_data_7.0days.txt" = none
    ∧ parseDays "blazar_lightcurve_data_7.0days.txt" = some 7 := by
  refine ⟨?_, by decide, by decide, by decide, by decide, by decide⟩
  intro name
  rw [parseLC, amendedAccept]
  cases h : visualExts.contains (toLowerStr (pySuffix name)) with
  | false => simp [h]
  | true =>
    simp only [h, if_true, Bool.true_and]
    rw [parseDays_isSome, searchAux_isSome, searchAux_isSome, any_orDistrib]

/-- C3 counterexample: `glob("sed_plot.*")` also matches names whose stem is
not `sed_plot`, e.g. `sed_plot.extra.png`; the code returns it while the
claim's candidate set (stem equal to `sed_plot`) yields none. -/
theorem c3_glob_counterexample :
    findSedPath ["sed_plot.extra.png"] false = some "sed_plot.extra.png"
    ∧ findSedPath ["sed_plot.extra.png"] true = some "sed_plot.extra.png"
    ∧ pyStem "sed_plot.extra.png" ≠ "sed_plot"
    ∧ sedResolveStemSpec ["sed_plot.extra.png"] false = none
    ∧ sedResolveStemSpec ["sed_plot.extra.png"] true = none := by decide

/-- C3 (amended): SED resolution considers exactly the files whose name starts
with the literal `sed_plot.` and returns the first image candidate in
enumeration order regardless of `allow_pdf`, else the first pdf candidate if
`allow_pdf`, else none; with the spec's concrete cases. -/
theorem c3_sed_resolution :
    (∀ (listing : List String) (allow_pdf : Bool),
        findSedPath listing allow_pdf = sedResolveGlobSpec listing allow_pdf)
    ∧ findSedPath ["sed_plot.png", "sed_plot.pdf"] false = some "sed_plot.png"
    ∧ findSedPath ["sed_plot.png", "sed_plot.pdf"] true = some "sed_plot.png"
    ∧ findSedPath ["sed_plot.pdf"] false = none
    ∧ findSedPath ["sed_plot.pdf"] true = some "sed_plot.pdf" := by
  refine ⟨?_, by decide, by decide, by decide, by decide⟩
  intro listing allow_pdf
  rw [findSedPath, sedResolveGlobSpec]
  cases hc : listing.filter (fun n => startsWithStr n "sed_plot.") with
  | nil =>
    cases allow_pdf <;> simp
  | cons c cs =>
    rw [find?_eq_head_filter, find?_eq_head_filter]
    cases hi : (c :: cs).filter (fun p => IMG_EXTS.contains (toLowerStr (pySuffix p))) with
    | nil => simp
    | cons a t => simp

/-- C4: with no requested bins, selection walks every discovered bin in
ascending numeric order and picks exactly one artifact per bin — the Markup
one when `prefer_html` holds and one exists, else the first present extension
in the fixed priority order — as on the spec's two-bin example. -/
theorem c4_select_all_bins (index : LcIndex) (ph : Bool)
    (hval : ∀ e ∈ index, ∃ kv ∈ e.2, kv.1 ∈ prioExts) :
    (selectBins index none ph).map Prod.fst = sortedKeys index
    ∧ (∀ d a, (d, a) ∈ selectBins index none ph → claimPick (filesFor index d) ph = some a)
    ∧ (sortedKeys index).Sorted (· ≤ ·)
    ∧ (sortedKeys index).Perm (index.map Prod.fst)
    ∧ selectBins exampleIndex none false = [(7, "lc7.png"), (30, "lc30.png")]
    ∧ selectBins exampleIndex none true = [(7, "lc7.html"), (30, "lc30.png")] := by
  refine ⟨?_, ?_, List.sorted_insertionSort _ _, List.perm_insertionSort _ _,
    by decide, by decide⟩
  · rw [selectBins_map_fst]
    have hwd : wantedDays index none = sortedKeys index := rfl
    rw [hwd]
    apply List.filter_eq_self.mpr
    intro d hd
    have hdk : d ∈ index.map Prod.fst :=
      ((List.perm_insertionSort (· ≤ ·) (index.map Prod.fst)).mem_iff).mp hd
    obtain ⟨e, he, _, hfl⟩ := filesFor_of_mem_keys index d hdk
    rw [hfl]
    exact pickArtifact_isSome_of_valid _ _ (hval e he)
  · intro d a hmem
    rw [selectBins] at hmem
    obtain ⟨x, _, hfx⟩ := List.mem_filterMap.mp hmem
    obtain ⟨p, hp, heq⟩ := Option.map_eq_some'.mp hfx
    have hxd : x = d := congrArg Prod.fst heq
    have hpa : p = a := congrArg Prod.snd heq
    subst hxd
    subst hpa
    rw [← pickArtifact_eq_claimPick]
    exact hp

/-- Witness for `c4_select_all_bins` on the spec's example index. -/
theorem c4_select_all_bins_witness :
    (∀ e ∈ exampleIndex, ∃ kv ∈ e.2, kv.1 ∈ prioExts)
    ∧ ((selectBins exampleIndex none false).map Prod.fst = sortedKeys exampleIndex
       ∧ (∀ d a, (d, a) ∈ selectBins exampleIndex none false →
            claimPick (filesFor exampleIndex d) false = some a)
       ∧ (sortedKeys exampleIndex).Sorted (· ≤ ·)
       ∧ (sortedKeys exampleIndex).Perm (exampleIndex.map Prod.fst)
       ∧ selectBins exampleIndex none false = [(7, "lc7.png"), (30, "lc30.png")]
       ∧ selectBins exampleIndex none true = [(7, "lc7.html"), (30, "lc30.png")]) :=
  ⟨by decide, c4_select_all_bins exampleIndex false (by decide)⟩

/-- C5: an explicit (non-empty) requested-bin list is deduplicated preserving
caller order and the output follows exactly that order; a requested bin
missing from the index contributes nothing (its empty dict yields no pick),
silently.  On the spec's example, `[30, 7, 99]` yields `[30, 7]`. -/
theorem c5_requested_bins (index : LcIndex) (days : List ℚ) (ph : Bool)
    (hne : days ≠ []) :
    selectBins index (some days) ph
      = (firstOccDedup days).filterMap
          (fun d => ((index.find? (fun e => decide (e.1 = d))).map Prod.snd).bind
            (fun files => (claimPick files ph).map (fun a => (d, a))))
    ∧ selectBins exampleIndex (some [30, 7, 99]) false
        = [(30, "lc30.png"), (7, "lc7.png")] := by
  refine ⟨?_, by decide⟩
  have hie : days.isEmpty = false := by
    cases days with
    | nil => exact absurd rfl hne
    | cons a t => rfl
  rw [selectBins, wantedDays, if_neg (by rw [hie]; simp)]
  congr 1
  funext d
  cases hf : index.find? (fun e => decide (e.1 = d)) with
  | none =>
    have hff : filesFor index d = [] := by simp [filesFor, hf]
    simp [hff, pickArtifact_nil, hf]
  | some e =>
    have hff : filesFor index d = e.2 := by simp [filesFor, hf]
    simp [hff, hf, pickArtifact_eq_claimPick]

/-- Witness for `c5_requested_bins` on the spec's example request. -/
theorem c5_requested_bins_witness :
    ([30, 7, 99] : List ℚ) ≠ []
    ∧ (selectBins exampleIndex (some [30, 7, 99]) false
        = (firstOccDedup [30, 7, 99]).filterMap
            (fun d => ((exampleIndex.find? (fun e => decide (e.1 = d))).map Prod.snd).bind
              (fun files => (claimPick files false).map (fun a => (d, a))))
       ∧ selectBins exampleIndex (some [30, 7, 99]) false
           = [(30, "lc30.png"), (7, "lc7.png")]) :=
  ⟨by decide, c5_requested_bins exampleIndex [30, 7, 99] false (by decide)⟩

/-- C6: under either policy the selection output has at most one entry per
bin (its bins are nodup) and preserves the determined bin order (its bins are
a sublist of the wanted-order list); consequently every target record's
lightcurve sequence, built from a discovered index, satisfies the same
invariant. -/
theorem c6_selection_invariant (index : LcIndex) (days : Option (List ℚ)) (ph : Bool)
    (h : (index.map Prod.fst).Nodup) :
    ((selectBins index days ph).map Prod.fst).Nodup
    ∧ ((selectBins index days ph).map Prod.fst).Sublist (wantedDays index days)
    ∧ (∀ (fs : FS) (opts : BuildOptions) (name : String),
        (((mkRecord fs opts name).lightcurves).map Prod.fst).Nodup
        ∧ (((mkRecord fs opts name).lightcurves).map Prod.fst).Sublist
            (wantedDays (targetIndex fs opts name) opts.days)) := by
  have main : ∀ (idx : LcIndex) (ds : Option (List ℚ)) (phb : Bool),
      (idx.map Prod.fst).Nodup →
      ((selectBins idx ds phb).map Prod.fst).Nodup
      ∧ ((selectBins idx ds phb).map Prod.fst).Sublist (wantedDays idx ds) := by
    intro idx ds phb hnd
    rw [selectBins_map_fst]
    exact ⟨(wantedDays_nodup idx ds hnd).filter _, List.filter_sublist _⟩
  refine ⟨(main index days ph h).1, (main index days ph h).2, ?_⟩
  intro fs opts name
  have hk : ((targetIndex fs opts name).map Prod.fst).Nodup :=
    discoverIndex_keys_nodup fs _
  exact main (targetIndex fs opts name) opts.days opts.prefer_html hk

/-- Witness for `c6_selection_invariant` on the spec's example index. -/
theorem c6_selection_invariant_witness :
    (exampleIndex.map Prod.fst).Nodup
    ∧ (((selectBins exampleIndex none false).map Prod.fst).Nodup
       ∧ ((selectBins exampleIndex none false).map Prod.fst).Sublist
           (wantedDays exampleIndex none)
       ∧ (∀ (fs : FS) (opts : BuildOptions) (name : String),
            (((mkRecord fs opts name).lightcurves).map Prod.fst).Nodup
            ∧ (((mkRecord fs opts name).lightcurves).map Prod.fst).Sublist
                (wantedDays (targetIndex fs opts name) opts.days))) :=
  ⟨by decide, c6_selection_invariant exampleIndex none false (by decide)⟩

end FermiDash
